import Mathlib

/-!
Shallow embedding of the first-party code of the intrusion-detector
repository: `src/dam_analyzer.py` (class `DAMAnalyzer`) and
`src/log_manager.py` (class `LogManager`).

Python strings are modelled as `List Char`.  Subprocess output is captured
with `text=True`, which normalises line endings, so `str.splitlines()` is
modelled as splitting on `'\n'`.  File contents are modelled as a
`List Char` value threaded through the operations; the `try/except` blocks
of the source catch every exception and return a sentinel, which the
embedding reflects by making every operation a total function.
-/

/-- Python `str.splitlines()` restricted to `'\n'` terminators: every
newline ends a line, a trailing fragment without a terminator is a line of
its own, and the empty string has no lines. -/
def pySplitlines : List Char → List (List Char)
  | [] => []
  | c :: cs =>
    if c = '\n' then [] :: pySplitlines cs
    else
      match pySplitlines cs with
      | [] => [[c]]
      | l :: ls => (c :: l) :: ls

/-- The whitespace characters stripped by Python `str.strip()`. -/
def isWS (c : Char) : Bool :=
  c = ' ' || c = '\t' || c = '\n' || c = '\r' || c = '\x0b' || c = '\x0c'

/-- Right strip (trailing whitespace removal). -/
def stripR (s : List Char) : List Char := (s.reverse.dropWhile isWS).reverse

/-- Python `str.strip()`. -/
def pyStrip (s : List Char) : List Char := stripR (s.dropWhile isWS)

/-- Split at the first occurrence of `sep`: the part before it and the part
after it, or `none` when `sep` does not occur.  Models Python
`s.split(sep, 1)` as well as `re.search` of a literal pattern. -/
def splitFirst (sep : List Char) : List Char → Option (List Char × List Char)
  | [] => if sep.isPrefixOf ([] : List Char) then some ([], []) else none
  | c :: cs =>
    if sep.isPrefixOf (c :: cs) then some ([], (c :: cs).drop sep.length)
    else (splitFirst sep cs).map (fun p => (c :: p.1, p.2))

/-- Substring containment, as Python `sep in s` or `re.search` with a
literal alternative. -/
def containsSub (sep s : List Char) : Bool := (splitFirst sep s).isSome

/-- The literal marker scanned for by `_extract_description`. -/
def markerD : List Char := "Description:".data

/-- The four noise alternatives of the fallback regular expression
`frame loading|propagate in video|Loading checkpoint|UserWarning`. -/
def noisePats : List (List Char) :=
  ["frame loading".data, "propagate in video".data,
   "Loading checkpoint".data, "UserWarning".data]

/-- The fallback filter of `DAMAnalyzer._extract_description`: keep lines
that are non-blank after strip and match none of the noise patterns. -/
def clean_lines (raw : List Char) : List (List Char) :=
  (pySplitlines raw).filter
    (fun l => !(pyStrip l).isEmpty && !(noisePats.any (fun p => containsSub p l)))

/-- The lines of the raw output that begin with the `Description:` marker,
in order (the loop of `_extract_description` visits exactly these). -/
def marker_lines (raw : List Char) : List (List Char) :=
  (pySplitlines raw).filter (fun l => markerD.isPrefixOf l)

/-- DAMAnalyzer._extract_description: scan the lines; every line starting
with `Description:` overwrites `desc` with the stripped text after the
first occurrence of the marker (`line.split("Description:", 1)[1].strip()`);
if the final `desc` is non-empty (Python truthiness) return it, otherwise
return the last clean line stripped, or the whole raw output stripped when
no clean line exists. -/
def extract_description (raw : List Char) : List Char :=
  let desc := (pySplitlines raw).foldl
    (fun d line =>
      if markerD.isPrefixOf line then pyStrip ((splitFirst markerD line).getD ([], [])).2
      else d) []
  if desc.isEmpty then
    match (clean_lines raw).getLast? with
    | some l => pyStrip l
    | none => pyStrip raw
  else desc

/-- The outcome of `subprocess.run(cmd, text=True, stdout=PIPE, stderr=PIPE)`. -/
structure SubprocResult where
  returncode : Int
  stdout : List Char
  stderr : List Char

/-- Python `a or b` on text-mode strings: `a` when non-empty, else `b`. -/
def pyOrStr (a b : List Char) : List Char := if a.isEmpty then b else a

/-- DAMAnalyzer.analyze_with_bbox, as a function of the subprocess result:
the `try` block raises on a non-zero exit code and the `except` clause
converts every exception into `None`; on exit code zero the description is
extracted from `result.stdout or result.stderr`. -/
def analyze_with_bbox (res : SubprocResult) : Option (List Char) :=
  if res.returncode ≠ 0 then none
  else some (extract_description (pyOrStr res.stdout res.stderr))

/-- DAMAnalyzer.analyze_with_sam2: identical result handling to
`analyze_with_bbox` (the two differ only in the command line and console
messages). -/
def analyze_with_sam2 (res : SubprocResult) : Option (List Char) :=
  if res.returncode ≠ 0 then none
  else some (extract_description (pyOrStr res.stdout res.stderr))

/-- DAMAnalyzer.analyze_video: dispatch on `use_sam2`. -/
def analyze_video (use_sam2 : Bool) (res : SubprocResult) : Option (List Char) :=
  if use_sam2 then analyze_with_sam2 res else analyze_with_bbox res


/-- Decimal digit character, as produced by `strftime` and `str(int)`. -/
def digitChar (n : Nat) : Char := Char.ofNat (48 + n)

/-- Lower-case hexadecimal digit character (for JSON `\u00XX` escapes). -/
def hexDigit (d : Nat) : Char := Char.ofNat (if d < 10 then 48 + d else 87 + d)

/-- Decimal representation, fuelled so that the recursion is structural
(and hence kernel-reducible); the fuel never runs out because a number
below `10 ^ f` has at most `f` digits. -/
def natDigitsAux : Nat → Nat → List Char
  | 0, _ => []
  | f + 1, n =>
    if n < 10 then [digitChar n]
    else natDigitsAux f (n / 10) ++ [digitChar (n % 10)]

/-- Decimal representation of a natural number, most significant digit
first. -/
def natDigits (n : Nat) : List Char := natDigitsAux (n + 1) n

/-- Zero-padded decimal, as the `%Y`/`%m`/`%d`/`%H`/`%M`/`%S` directives of
`strftime` produce. -/
def pad (w n : Nat) : List Char :=
  List.replicate (w - (natDigits n).length) '0' ++ natDigits n

/-- A `datetime.datetime` value, restricted to the fields the two format
strings of `log_manager.py` consume. -/
structure DateTime where
  year : Nat
  month : Nat
  day : Nat
  hour : Nat
  minute : Nat
  second : Nat

/-- Python `dt.strftime('%Y-%m-%d-%H%M%S')`. -/
def fmtFull (d : DateTime) : List Char :=
  pad 4 d.year ++ '-' :: pad 2 d.month ++ '-' :: pad 2 d.day
    ++ '-' :: pad 2 d.hour ++ pad 2 d.minute ++ pad 2 d.second

/-- Python `dt.strftime('%H%M%S')`. -/
def fmtTime (d : DateTime) : List Char :=
  pad 2 d.hour ++ pad 2 d.minute ++ pad 2 d.second

/-- The time-range token of `LogManager.append_log`:
`f"{start_dt.strftime('%Y-%m-%d-%H%M%S')}~{end_dt.strftime('%H%M%S')}"`. -/
def time_range (start_dt end_dt : DateTime) : List Char :=
  fmtFull start_dt ++ '~' :: fmtTime end_dt

/-- Python `datetime.now().strftime("%Y%m%d_%H%M%S")`, the default backup
suffix of `LogManager.backup_logs`. -/
def fmtBackupTs (d : DateTime) : List Char :=
  pad 4 d.year ++ pad 2 d.month ++ pad 2 d.day
    ++ '_' :: pad 2 d.hour ++ pad 2 d.minute ++ pad 2 d.second

/-- A JSON value, the type of the `bbox_info` metadata serialized by
`json.dumps` in `append_log` (floating-point numbers are represented by
their integer cases; the claims do not depend on float formatting). -/
inductive JVal where
  | jnull : JVal
  | jbool : Bool → JVal
  | jint : Int → JVal
  | jstr : List Char → JVal
  | jarr : List JVal → JVal
  | jobj : List (List Char × JVal) → JVal

/-- The escape of one character inside a JSON string literal, as performed
by `json.dumps(..., ensure_ascii=False)`. -/
def escChar (c : Char) : List Char :=
  if c = '"' then ['\\', '"']
  else if c = '\\' then ['\\', '\\']
  else if c = '\n' then ['\\', 'n']
  else if c = '\t' then ['\\', 't']
  else if c = '\r' then ['\\', 'r']
  else if c = '\x08' then ['\\', 'b']
  else if c = '\x0c' then ['\\', 'f']
  else if c.toNat < 32 then
    ['\\', 'u', '0', '0', hexDigit (c.toNat / 16), hexDigit (c.toNat % 16)]
  else [c]

/-- A JSON string literal: quote, escaped characters, quote. -/
def dumpStr (s : List Char) : List Char := '"' :: (s.map escChar).flatten ++ ['"']

/-- Decimal rendering of a JSON integer. -/
def intD (n : Int) : List Char :=
  if n < 0 then '-' :: natDigits n.natAbs else natDigits n.toNat

mutual

/-- Python `json.dumps(v, ensure_ascii=False)` with the default separators
`", "` and `": "`: containers surround their comma-separated items with
brackets, object items are `key: value`. -/
def dumps : JVal → List Char
  | .jnull => "null".data
  | .jbool true => "true".data
  | .jbool false => "false".data
  | .jint n => intD n
  | .jstr s => dumpStr s
  | .jarr xs => '[' :: dumpsArr xs ++ [']']
  | .jobj kvs => '\x7b' :: dumpsObj kvs ++ ['\x7d']

/-- The comma-separated items of a JSON array. -/
def dumpsArr : List JVal → List Char
  | [] => []
  | [x] => dumps x
  | x :: y :: xs => dumps x ++ ',' :: ' ' :: dumpsArr (y :: xs)

/-- The comma-separated `key: value` items of a JSON object. -/
def dumpsObj : List (List Char × JVal) → List Char
  | [] => []
  | [(k, v)] => dumpStr k ++ ':' :: ' ' :: dumps v
  | (k, v) :: kv :: kvs => dumpStr k ++ ':' :: ' ' :: dumps v ++ ',' :: ' ' :: dumpsObj (kv :: kvs)

end

/-- Python truthiness of the `bbox_info` argument (`if bbox_info:`): `None`
and the empty dict are both falsy. -/
def dictTruthy : Option (List (List Char × JVal)) → Bool
  | none => false
  | some d => !d.isEmpty

/-- LogManager.append_log acting on the file content: appends
`f"{time_range}\t{description}\t{json.dumps(bbox_info)}\n"` when
`bbox_info` is truthy, `f"{time_range}\t{description}\n"` otherwise.  The
model returns the new file content (the source returns `True`; its `except`
arm is an I/O failure not modelled by the pure content state). -/
def append_log (content : List Char) (start_dt end_dt : DateTime)
    (description : List Char) (bbox_info : Option (List (List Char × JVal))) : List Char :=
  let tr := time_range start_dt end_dt
  if dictTruthy bbox_info then
    content ++ tr ++ '\t' :: description ++ '\t' :: dumps (.jobj (bbox_info.getD [])) ++ ['\n']
  else
    content ++ tr ++ '\t' :: description ++ ['\n']

/-- The arguments of one `append_log` call. -/
structure LogCall where
  start_dt : DateTime
  end_dt : DateTime
  description : List Char
  bbox_info : Option (List (List Char × JVal))

/-- A sequence of `append_log` calls, applied left to right. -/
def append_many (content : List Char) (calls : List LogCall) : List Char :=
  calls.foldl (fun c e => append_log c e.start_dt e.end_dt e.description e.bbox_info) content

/-- LogManager._create_log_file: the fixed header written with mode `"w"`
(a title comment, a format comment with literal backslash-t sequences, a
creation-timestamp comment, and a blank line). -/
def create_log_file (now_iso : List Char) : List Char :=
  "# Action Log File\n".data ++ "# Format: TIME_RANGE\\tDESCRIPTION\\tBBOX_INFO\n".data
    ++ "# Created: ".data ++ now_iso ++ "\n\n".data

/-- LogManager.clear_logs: re-runs `_create_log_file`, discarding the
previous content. -/
def clear_logs (_content : List Char) (now_iso : List Char) : List Char :=
  create_log_file now_iso

/-- The line filter shared by `read_recent_logs` and `get_log_stats`:
`line.strip() and not line.startswith('#')`. -/
def entryLine (l : List Char) : Bool :=
  !(pyStrip l).isEmpty && !("#".data.isPrefixOf l)

/-- The list comprehension of `read_recent_logs`: the stripped non-blank
non-comment lines. -/
def logLines (content : List Char) : List (List Char) :=
  ((pySplitlines content).filter entryLine).map pyStrip

/-- The Python slice `xs[i:]`: a negative start counts back from the end
and is clamped at zero, a non-negative start is used directly. -/
def pySliceFrom {α : Type} (xs : List α) (i : Int) : List α :=
  if i < 0 then xs.drop (max 0 ((xs.length : Int) + i)).toNat else xs.drop i.toNat

/-- LogManager.read_recent_logs: `log_lines[-count:] if log_lines else []`. -/
def read_recent_logs (content : List Char) (count : Int) : List (List Char) :=
  let ll := logLines content
  if ll.isEmpty then [] else pySliceFrom ll (-count)

/-- The `total_entries` field of `LogManager.get_log_stats` (file size and
modification time are filesystem metadata outside the content model). -/
def get_log_stats_entries (content : List Char) : Nat :=
  ((pySplitlines content).filter entryLine).length

/-- Whether a string has no trailing whitespace (its last character, when
there is one, is not stripped by `str.strip()`). -/
def trailingWSFree (s : List Char) : Bool :=
  match s.getLast? with
  | none => true
  | some c => !isWS c

/-- Python `s.rfind(c)`: index of the last occurrence, `-1` when absent. -/
def pyRfind (c : Char) : List Char → Int
  | [] => -1
  | x :: xs =>
    let r := pyRfind c xs
    if r ≥ 0 then r + 1
    else if x = c then 0 else -1

/-- pathlib `PurePath.name` for an already-normalised POSIX path: the part
after the last separator. -/
def pathName (p : List Char) : List Char :=
  let i := pyRfind '/' p
  if i < 0 then p else p.drop (i.toNat + 1)

/-- pathlib `PurePath.suffix`: `name[i:]` for `i = name.rfind('.')` when
`0 < i < len(name) - 1`, else the empty string. -/
def pathSuffix (p : List Char) : List Char :=
  let n := pathName p
  let i := pyRfind '.' n
  if 0 < i ∧ i < (n.length : Int) - 1 then n.drop i.toNat else []

/-- pathlib `PurePath.with_suffix(newSuffix)` on a normalised path with a
non-empty name: drops the old suffix from the end of the name (the name is
the final segment, so this drops it from the end of the whole path) and
appends the new one. -/
def with_suffix (p newSuffix : List Char) : List Char :=
  let old := pathSuffix p
  if old.isEmpty then p ++ newSuffix
  else p.take (p.length - old.length) ++ newSuffix

/-- LogManager.backup_logs over the content state: `None` when the file
does not exist; the suffix defaults to the `%Y%m%d_%H%M%S` timestamp; the
backup path is `log_file_path.with_suffix(f".{backup_suffix}.txt")`, and
`shutil.copy2` writes the file content there (returned as the second
component; `with_suffix` raises `ValueError` on a separator inside the
suffix or an empty file name, which the `except` arm turns into `None`). -/
def backup_logs (log_path : List Char) (log_exists : Bool) (content : List Char)
    (backup_suffix : Option (List Char)) (now : DateTime) : Option (List Char × List Char) :=
  if !log_exists then none
  else
    let suf := match backup_suffix with
      | none => fmtBackupTs now
      | some s => s
    let newSuffix := '.' :: suf ++ ".txt".data
    if '/' ∈ newSuffix then none
    else if (pathName log_path).isEmpty then none
    else some (with_suffix log_path newSuffix, content)


/-! ### General helper lemmas -/

theorem foldl_overwrite {α β : Type} (p : α → Bool) (f : α → β) :
    ∀ (l : List α) (init : β),
      l.foldl (fun d x => if p x then f x else d) init
        = ((l.filter p).getLast?).elim init f := by
  intro l
  induction l with
  | nil => intro init; rfl
  | cons x xs ih =>
    intro init
    rw [List.foldl_cons, ih]
    by_cases hp : p x
    · rw [List.filter_cons_of_pos hp]
      cases hfx : xs.filter p with
      | nil => simp [hfx, hp]
      | cons y ys =>
        rw [List.getLast?_cons_cons, List.getLast?_eq_getLast _ (by simp)]
        simp
    · rw [List.filter_cons_of_neg (by simpa using hp)]
      simp [hp]

theorem splitFirst_at_head {sep s : List Char} (h : sep.isPrefixOf s) :
    splitFirst sep s = some ([], s.drop sep.length) := by
  cases s with
  | nil => simp [splitFirst, h]
  | cons c cs => simp [splitFirst, h]

theorem containsSub_nil_left (s : List Char) : containsSub [] s = true := by
  cases s <;> simp [containsSub, splitFirst, List.isPrefixOf]

theorem containsSub_of_parts (sep a b : List Char) : containsSub sep (a ++ sep ++ b) = true := by
  induction a with
  | nil =>
    have h : sep.isPrefixOf (sep ++ b) := by
      rw [List.isPrefixOf_iff_prefix]; exact List.prefix_append sep b
    simp [containsSub, splitFirst_at_head h]
  | cons c cs ih =>
    have e : (c :: cs) ++ sep ++ b = c :: (cs ++ sep ++ b) := by simp
    rw [e]
    by_cases hp : sep.isPrefixOf (c :: (cs ++ sep ++ b))
    · unfold containsSub
      rw [splitFirst_at_head hp]
      rfl
    · simp only [containsSub, splitFirst, hp, if_false]
      simpa [Option.isSome_map] using ih

theorem pySplitlines_ne_nil {s : List Char} (h : s ≠ []) : pySplitlines s ≠ [] := by
  cases s with
  | nil => exact absurd rfl h
  | cons c cs =>
    simp only [pySplitlines]
    split
    · simp
    · split <;> simp

theorem pySplitlines_prepend_line (a b : List Char) (h : '\n' ∉ a) :
    pySplitlines (a ++ '\n' :: b) = a :: pySplitlines b := by
  induction a with
  | nil => simp [pySplitlines]
  | cons c cs ih =>
    have hc : ¬(c = '\n') := fun e => h (e ▸ List.mem_cons_self c cs)
    have hm : '\n' ∉ cs := fun m => h (List.mem_cons_of_mem _ m)
    rw [List.cons_append]
    simp only [pySplitlines, hc, if_false, ih hm]

theorem pySplitlines_cons_nl (cs : List Char) :
    pySplitlines ('\n' :: cs) = [] :: pySplitlines cs := by
  rw [pySplitlines, if_pos rfl]

theorem pySplitlines_cons_not_nl {c : Char} (hc : ¬(c = '\n')) (cs : List Char) :
    pySplitlines (c :: cs)
      = match pySplitlines cs with
        | [] => [[c]]
        | l :: ls => (c :: l) :: ls := by
  rw [pySplitlines, if_neg hc]

theorem pySplitlines_append {a : List Char} (b : List Char) (h : a.getLast? = some '\n') :
    pySplitlines (a ++ b) = pySplitlines a ++ pySplitlines b := by
  induction a with
  | nil => simp at h
  | cons c cs ih =>
    cases cs with
    | nil =>
      have hc : c = '\n' := by simpa using h
      subst hc
      simp [pySplitlines]
    | cons d ds =>
      have h2 : (d :: ds).getLast? = some '\n' := by
        rwa [List.getLast?_cons_cons] at h
      have ihd := ih h2
      obtain ⟨l, ls, hls⟩ : ∃ l ls, pySplitlines (d :: ds) = l :: ls := by
        cases hp : pySplitlines (d :: ds) with
        | nil => exact absurd hp (pySplitlines_ne_nil (by simp))
        | cons l ls => exact ⟨l, ls, rfl⟩
      rw [List.cons_append]
      by_cases hc : c = '\n'
      · subst hc
        rw [pySplitlines_cons_nl, pySplitlines_cons_nl, ihd, List.cons_append]
      · rw [pySplitlines_cons_not_nl hc, pySplitlines_cons_not_nl hc, ihd, hls,
          List.cons_append]
        simp

/-! ### Strip lemmas -/

theorem mem_dropWhile_of_not {p : Char → Bool} {c : Char} {s : List Char}
    (hm : c ∈ s) (hc : p c = false) : c ∈ s.dropWhile p := by
  induction s with
  | nil => cases hm
  | cons x xs ih =>
    rw [List.dropWhile_cons]
    by_cases hx : p x = true
    · rw [if_pos hx]
      rcases List.mem_cons.mp hm with rfl | hm2
      · rw [hc] at hx; cases hx
      · exact ih hm2
    · rw [if_neg hx]
      exact hm

theorem pyStrip_ne_nil {c : Char} {s : List Char} (hm : c ∈ s) (hc : isWS c = false) :
    pyStrip s ≠ [] := by
  intro h
  unfold pyStrip stripR at h
  have h1 : (s.dropWhile isWS).reverse.dropWhile isWS = [] :=
    List.reverse_eq_nil_iff.mp h
  have h2 : c ∈ s.dropWhile isWS := mem_dropWhile_of_not hm hc
  have h3 : c ∈ (s.dropWhile isWS).reverse := List.mem_reverse.mpr h2
  have h4 := mem_dropWhile_of_not h3 hc
  rw [h1] at h4
  cases h4

theorem stripR_append_last {x : List Char} {c : Char} (hc : isWS c = false) :
    stripR (x ++ [c]) = x ++ [c] := by
  unfold stripR
  rw [List.reverse_append]
  simp only [List.reverse_cons, List.reverse_nil, List.nil_append, List.singleton_append]
  rw [List.dropWhile_cons, if_neg (by simp [hc])]
  simp

theorem stripR_eq_self {s : List Char} {c : Char} (h : s.getLast? = some c) (hc : isWS c = false) :
    stripR s = s := by
  have e : s.dropLast ++ [c] = s := List.dropLast_append_getLast? c (by simp [h])
  rw [← e, stripR_append_last hc]

theorem pyStrip_cons_not_ws {c : Char} {t : List Char} (hc : isWS c = false) :
    pyStrip (c :: t) = stripR (c :: t) := by
  unfold pyStrip
  rw [List.dropWhile_cons, if_neg (by simp [hc])]

theorem stripR_append (a b : List Char) :
    stripR (a ++ b) = if (stripR b).isEmpty then stripR a else a ++ stripR b := by
  unfold stripR
  rw [List.reverse_append, List.dropWhile_append]
  by_cases he : (b.reverse.dropWhile isWS).isEmpty = true
  · have he2 : ((b.reverse.dropWhile isWS).reverse).isEmpty = true := by
      rw [List.isEmpty_iff] at he ⊢
      simp [he]
    rw [if_pos he, if_pos he2]
  · have he2 : ¬(((b.reverse.dropWhile isWS).reverse).isEmpty = true) := by
      intro h2
      rw [List.isEmpty_iff] at h2
      exact he (by rw [List.isEmpty_iff]; exact List.reverse_eq_nil_iff.mp h2)
    rw [if_neg he, if_neg he2, List.reverse_append, List.reverse_reverse]

/-! ### Digit and time-range lemmas -/

theorem natDigitsAux_isDigit :
    ∀ (f n : Nat) (c : Char), c ∈ natDigitsAux f n → c.isDigit = true := by
  intro f
  induction f with
  | zero => intro n c h; cases h
  | succ f ih =>
    intro n c h
    rw [natDigitsAux] at h
    by_cases hn : n < 10
    · rw [if_pos hn] at h
      have e : c = digitChar n := by simpa using h
      subst e
      interval_cases n <;> decide
    · rw [if_neg hn] at h
      rcases List.mem_append.mp h with h1 | h2
      · exact ih _ _ h1
      · have e : c = digitChar (n % 10) := by simpa using h2
        subst e
        have hm : n % 10 < 10 := Nat.mod_lt _ (by omega)
        set m := n % 10 with hmm
        interval_cases m <;> decide

theorem natDigits_isDigit {n : Nat} {c : Char} (h : c ∈ natDigits n) : c.isDigit = true :=
  natDigitsAux_isDigit _ _ _ h

theorem natDigits_ne_nil (n : Nat) : natDigits n ≠ [] := by
  unfold natDigits
  rw [natDigitsAux]
  by_cases hn : n < 10
  · simp [hn]
  · simp [hn]

theorem pad_isDigit {w n : Nat} {c : Char} (h : c ∈ pad w n) : c.isDigit = true := by
  unfold pad at h
  rcases List.mem_append.mp h with h1 | h2
  · have e : c = '0' := List.eq_of_mem_replicate h1
    subst e; decide
  · exact natDigits_isDigit h2

theorem pad_ne_nil (w n : Nat) : pad w n ≠ [] := by
  unfold pad
  intro h
  exact natDigits_ne_nil n (List.append_eq_nil.mp h).2

theorem isDigit_not_ws {c : Char} (hd : c.isDigit = true) : isWS c = false := by
  by_contra h
  have h1 : isWS c = true := by revert h; cases isWS c <;> simp
  unfold isWS at h1
  simp only [Bool.or_eq_true, decide_eq_true_eq] at h1
  rcases h1 with ((((e | e) | e) | e) | e) | e <;> subst e <;> exact absurd hd (by decide)

theorem isDigit_ne_nl {c : Char} (hd : c.isDigit = true) : ¬(c = '\n') := by
  intro e; subst e; exact absurd hd (by decide)

theorem pad_cons (w n : Nat) : ∃ c t, pad w n = c :: t ∧ c.isDigit = true := by
  cases hp : pad w n with
  | nil => exact absurd hp (pad_ne_nil w n)
  | cons c t =>
    exact ⟨c, t, rfl, pad_isDigit (hp ▸ List.mem_cons_self c t)⟩

theorem natDigits_getLast_digit (n : Nat) :
    ∃ c, (natDigits n).getLast? = some c ∧ c.isDigit = true := by
  have h := natDigits_ne_nil n
  exact ⟨(natDigits n).getLast h, List.getLast?_eq_getLast _ h,
    natDigits_isDigit (List.getLast_mem h)⟩

theorem pad_getLast_digit (w n : Nat) :
    ∃ c, (pad w n).getLast? = some c ∧ c.isDigit = true := by
  obtain ⟨c, hc, hd⟩ := natDigits_getLast_digit n
  refine ⟨c, ?_, hd⟩
  unfold pad
  rw [List.getLast?_append_of_ne_nil _ (natDigits_ne_nil n), hc]

theorem getLast?_cons_of_ne_nil {α : Type} (a : α) {l : List α} (h : l ≠ []) :
    (a :: l).getLast? = l.getLast? := by
  cases l with
  | nil => exact absurd rfl h
  | cons b t => exact List.getLast?_cons_cons

theorem time_range_chars {s e : DateTime} {c : Char} (h : c ∈ time_range s e) :
    c.isDigit = true ∨ c = '-' ∨ c = '~' := by
  unfold time_range fmtFull fmtTime at h
  simp only [List.mem_append, List.mem_cons] at h
  casesm* _ ∨ _
  all_goals
    first
      | exact Or.inl (pad_isDigit (by assumption))
      | exact Or.inr (Or.inl (by assumption))
      | exact Or.inr (Or.inr (by assumption))

theorem time_range_no_nl (s e : DateTime) : '\n' ∉ time_range s e := by
  intro h
  rcases time_range_chars h with h1 | h2 | h3
  · exact absurd h1 (by decide)
  · cases h2
  · cases h3

theorem time_range_head_digit (s e : DateTime) :
    ∃ c t, time_range s e = c :: t ∧ c.isDigit = true := by
  obtain ⟨c, t, hct, hd⟩ := pad_cons 4 s.year
  unfold time_range fmtFull
  rw [hct]
  simp only [List.cons_append]
  exact ⟨c, _, rfl, hd⟩

theorem time_range_getLast_digit (s e : DateTime) :
    ∃ c, (time_range s e).getLast? = some c ∧ c.isDigit = true := by
  obtain ⟨c, hc, hd⟩ := pad_getLast_digit 2 e.second
  refine ⟨c, ?_, hd⟩
  unfold time_range fmtTime
  rw [List.getLast?_append_of_ne_nil _ (by simp : ('~' :: (pad 2 e.hour ++ pad 2 e.minute ++ pad 2 e.second) : List Char) ≠ []),
    getLast?_cons_of_ne_nil _
      (List.append_ne_nil_of_left_ne_nil
        (List.append_ne_nil_of_left_ne_nil (pad_ne_nil 2 e.hour) _) _),
    List.getLast?_append_of_ne_nil _ (pad_ne_nil 2 e.second)]
  exact hc

/-! ### JSON serialization lemmas -/

theorem hexDigit_ne_nl {d : Nat} (h : d < 16) : ¬('\n' = hexDigit d) := by
  interval_cases d <;> decide

theorem escChar_no_nl (c : Char) : '\n' ∉ escChar c := by
  unfold escChar
  split_ifs with h1 h2 h3 h4 h5 h6 h7 h8
  · decide
  · decide
  · decide
  · decide
  · decide
  · decide
  · decide
  · intro h
    simp only [List.mem_cons, List.not_mem_nil] at h
    rcases h with e | e | e | e | e | e | e
    · exact absurd e (by decide)
    · exact absurd e (by decide)
    · exact absurd e (by decide)
    · exact absurd e (by decide)
    · exact hexDigit_ne_nl (by omega) e
    · exact hexDigit_ne_nl (Nat.mod_lt _ (by omega)) e
    · exact e
  · intro h
    have e : '\n' = c := by simpa using h
    exact h8 (by rw [← e]; decide)

theorem dumpStr_no_nl (s : List Char) : '\n' ∉ dumpStr s := by
  unfold dumpStr
  intro h
  rcases List.mem_cons.mp h with e | h2
  · exact absurd e (by decide)
  rcases List.mem_append.mp h2 with h3 | h4
  · rw [List.mem_flatten] at h3
    obtain ⟨l, hl, hm⟩ := h3
    rw [List.mem_map] at hl
    obtain ⟨c, hc, rfl⟩ := hl
    exact escChar_no_nl c hm
  · exact absurd (by simpa using h4) (by decide : ¬('\n' = '"'))

theorem intD_no_nl (n : Int) : '\n' ∉ intD n := by
  unfold intD
  split_ifs
  · intro h
    rcases List.mem_cons.mp h with e | h2
    · exact absurd e (by decide)
    · exact absurd (natDigits_isDigit h2) (by decide)
  · intro h
    exact absurd (natDigits_isDigit h) (by decide)

mutual

theorem dumps_no_nl : ∀ (v : JVal), '\n' ∉ dumps v
  | .jnull => by decide
  | .jbool true => by decide
  | .jbool false => by decide
  | .jint n => by rw [dumps]; exact intD_no_nl n
  | .jstr s => by rw [dumps]; exact dumpStr_no_nl s
  | .jarr xs => by
    rw [dumps]
    intro h
    rcases List.mem_append.mp h with h2 | h4
    · rcases List.mem_cons.mp h2 with e | h3
      · exact absurd e (by decide)
      · exact dumpsArr_no_nl xs h3
    · exact absurd (by simpa using h4) (by decide : ¬('\n' = ']'))
  | .jobj kvs => by
    rw [dumps]
    intro h
    rcases List.mem_append.mp h with h2 | h4
    · rcases List.mem_cons.mp h2 with e | h3
      · exact absurd e (by decide)
      · exact dumpsObj_no_nl kvs h3
    · exact absurd (by simpa using h4) (by decide : ¬('\n' = '\x7d'))

theorem dumpsArr_no_nl : ∀ (xs : List JVal), '\n' ∉ dumpsArr xs
  | [] => by rw [dumpsArr]; simp
  | [x] => by rw [dumpsArr]; exact dumps_no_nl x
  | x :: y :: xs => by
    rw [dumpsArr]
    intro h
    rcases List.mem_append.mp h with h1 | h2
    · exact dumps_no_nl x h1
    rcases List.mem_cons.mp h2 with e | h3
    · exact absurd e (by decide)
    rcases List.mem_cons.mp h3 with e | h4
    · exact absurd e (by decide)
    · exact dumpsArr_no_nl (y :: xs) h4

theorem dumpsObj_no_nl : ∀ (kvs : List (List Char × JVal)), '\n' ∉ dumpsObj kvs
  | [] => by rw [dumpsObj]; simp
  | [(k, v)] => by
    rw [dumpsObj]
    intro h
    rcases List.mem_append.mp h with h1 | h2
    · exact dumpStr_no_nl k h1
    rcases List.mem_cons.mp h2 with e | h3
    · exact absurd e (by decide)
    rcases List.mem_cons.mp h3 with e | h4
    · exact absurd e (by decide)
    · exact dumps_no_nl v h4
  | (k, v) :: kv :: kvs => by
    rw [dumpsObj]
    intro h
    rcases List.mem_append.mp h with h1 | h2
    · rcases List.mem_append.mp h1 with ha | hx
      · exact dumpStr_no_nl k ha
      rcases List.mem_cons.mp hx with e | hx2
      · exact absurd e (by decide)
      rcases List.mem_cons.mp hx2 with e | hx3
      · exact absurd e (by decide)
      · exact dumps_no_nl v hx3
    · rcases List.mem_cons.mp h2 with e | h3
      · exact absurd e (by decide)
      rcases List.mem_cons.mp h3 with e | h4
      · exact absurd e (by decide)
      · exact dumpsObj_no_nl (kv :: kvs) h4

end

/-! ### Log-file lemmas -/

theorem entryLine_head_digit {c : Char} {t : List Char} (hd : c.isDigit = true) :
    entryLine (c :: t) = true := by
  unfold entryLine
  have h1 : pyStrip (c :: t) ≠ [] :=
    pyStrip_ne_nil (List.mem_cons_self c t) (isDigit_not_ws hd)
  have h1e : (pyStrip (c :: t)).isEmpty = false := by
    cases hx : (pyStrip (c :: t)).isEmpty
    · rfl
    · exact absurd (List.isEmpty_iff.mp hx) h1
  have hne : ¬('#' = c) := by
    intro e; rw [← e] at hd; exact absurd hd (by decide)
  have h2 : ("#".data : List Char).isPrefixOf (c :: t) = false := by
    have estep : (("#".data : List Char).isPrefixOf (c :: t)) = ('#' == c) := by
      show (('#' == c) && List.isPrefixOf [] t) = ('#' == c)
      simp
    rw [estep, beq_eq_false_iff_ne]
    exact hne
  rw [h1e, h2]
  rfl

theorem entryLine_hash (t : List Char) : entryLine ('#' :: t) = false := by
  unfold entryLine
  have h2 : ("#".data : List Char).isPrefixOf ('#' :: t) = true := by
    show (('#' == '#') && List.isPrefixOf [] t) = true
    simp
  rw [h2]
  simp

theorem append_log_eq (content : List Char) (s e : DateTime) (desc : List Char)
    (meta : Option (List (List Char × JVal))) :
    append_log content s e desc meta
      = content ++ (time_range s e ++ '\t' :: desc
          ++ (if dictTruthy meta then '\t' :: dumps (.jobj (meta.getD [])) else [])) ++ ['\n'] := by
  unfold append_log
  by_cases hm : dictTruthy meta = true
  · rw [if_pos hm, if_pos hm]
    simp [List.append_assoc]
  · rw [if_neg hm, if_neg hm]
    simp [List.append_assoc]

theorem recLine_no_nl (s e : DateTime) {desc X : List Char} (hd : '\n' ∉ desc)
    (hX : '\n' ∉ X) : '\n' ∉ time_range s e ++ '\t' :: desc ++ X := by
  intro h
  rcases List.mem_append.mp h with h1 | h2
  · rcases List.mem_append.mp h1 with h3 | h4
    · exact time_range_no_nl s e h3
    · rcases List.mem_cons.mp h4 with e1 | h5
      · exact absurd e1 (by decide)
      · exact hd h5
  · exact hX h2

theorem recLine_entry (s e : DateTime) (rest : List Char) :
    entryLine (time_range s e ++ rest) = true := by
  obtain ⟨c, t, hct, hd⟩ := time_range_head_digit s e
  rw [hct, List.cons_append]
  exact entryLine_head_digit hd

theorem filter_entry_append_record {content : List Char}
    (hc : content = [] ∨ content.getLast? = some '\n')
    {line : List Char} (hnl : '\n' ∉ line) (hel : entryLine line = true) :
    (pySplitlines (content ++ line ++ ['\n'])).filter entryLine
      = (pySplitlines content).filter entryLine ++ [line] := by
  have e2 : pySplitlines (line ++ '\n' :: []) = [line] := by
    rw [pySplitlines_prepend_line _ _ hnl]
    rfl
  have key : pySplitlines (content ++ line ++ ['\n']) = pySplitlines content ++ [line] := by
    rcases hc with rfl | hlast
    · rw [show pySplitlines ([] : List Char) = [] from rfl]
      simp only [List.nil_append]
      exact e2
    · have e1 : content ++ line ++ ['\n'] = content ++ (line ++ '\n' :: []) := by
        simp [List.append_assoc]
      rw [e1, pySplitlines_append _ hlast, e2]
  rw [key, List.filter_append, List.filter_cons_of_pos hel]
  rfl

theorem mem_of_getLast?_eq {α : Type} {l : List α} {a : α} (h : l.getLast? = some a) : a ∈ l := by
  obtain ⟨hne, he⟩ := List.mem_getLast?_eq_getLast (by simp [h] : a ∈ l.getLast?)
  rw [he]
  exact List.getLast_mem hne

theorem getLast?_of_ne_nil {α : Type} {l : List α} (h : l ≠ []) :
    ∃ a, l.getLast? = some a :=
  ⟨l.getLast h, List.getLast?_eq_getLast _ h⟩

theorem create_log_file_split (now : List Char) (h : '\n' ∉ now) :
    pySplitlines (create_log_file now)
      = ["# Action Log File".data,
         "# Format: TIME_RANGE\\tDESCRIPTION\\tBBOX_INFO".data,
         "# Created: ".data ++ now, []] := by
  have e1 : ("# Action Log File\n".data : List Char)
      = "# Action Log File".data ++ ['\n'] := by decide
  have e2 : ("# Format: TIME_RANGE\\tDESCRIPTION\\tBBOX_INFO\n".data : List Char)
      = "# Format: TIME_RANGE\\tDESCRIPTION\\tBBOX_INFO".data ++ ['\n'] := by decide
  have e3 : ("\n\n".data : List Char) = '\n' :: ['\n'] := by decide
  have h3 : '\n' ∉ "# Created: ".data ++ now := by
    intro hm
    rcases List.mem_append.mp hm with hx | hx
    · exact absurd hx (by decide)
    · exact h hx
  have e : create_log_file now
      = "# Action Log File".data ++ '\n'
          :: ("# Format: TIME_RANGE\\tDESCRIPTION\\tBBOX_INFO".data ++ '\n'
          :: (("# Created: ".data ++ now) ++ '\n' :: ['\n'])) := by
    unfold create_log_file
    rw [e1, e2, e3]
    simp [List.append_assoc]
  rw [e, pySplitlines_prepend_line _ _ (by decide),
    pySplitlines_prepend_line _ _ (by decide),
    pySplitlines_prepend_line _ _ h3, pySplitlines_cons_nl]
  rfl

theorem create_log_file_entries (now : List Char) (h : '\n' ∉ now) :
    get_log_stats_entries (create_log_file now) = 0 := by
  unfold get_log_stats_entries
  rw [create_log_file_split now h]
  have hA : entryLine "# Action Log File".data = false := by decide
  have hB : entryLine "# Format: TIME_RANGE\\tDESCRIPTION\\tBBOX_INFO".data = false := by decide
  have hC : entryLine ("# Created: ".data ++ now) = false := by
    have e3 : "# Created: ".data ++ now = '#' :: (" Created: ".data ++ now) := rfl
    rw [e3]
    exact entryLine_hash _
  have hN : entryLine ([] : List Char) = false := by decide
  rw [List.filter_cons_of_neg (by rw [hA]; decide), List.filter_cons_of_neg (by rw [hB]; decide),
    List.filter_cons_of_neg (by rw [hC]; decide), List.filter_cons_of_neg (by rw [hN]; decide)]
  rfl

theorem create_log_file_endsNL (now : List Char) :
    (create_log_file now).getLast? = some '\n' := by
  unfold create_log_file
  rw [List.getLast?_append_of_ne_nil _ (by decide : ("\n\n".data : List Char) ≠ [])]
  decide

theorem append_log_endsNL (content : List Char) (s e : DateTime) (desc : List Char)
    (meta : Option (List (List Char × JVal))) :
    (append_log content s e desc meta).getLast? = some '\n' := by
  rw [append_log_eq]
  rw [List.getLast?_append_of_ne_nil _ (by decide : (['\n'] : List Char) ≠ [])]
  rfl

theorem pySliceFrom_neg_one {α : Type} (L : List α) (x : α) :
    pySliceFrom (L ++ [x]) (-1) = [x] := by
  unfold pySliceFrom
  rw [if_pos (by omega : (-1 : Int) < 0)]
  have h0 : ((L ++ [x]).length : Int) + (-1) = (L.length : Int) := by
    have hl : (L ++ [x]).length = L.length + 1 := by simp
    rw [hl]
    push_cast
    ring
  rw [h0, max_eq_right (Int.natCast_nonneg _), Int.toNat_natCast]
  exact List.drop_left L [x]

theorem metaX_no_nl (meta : Option (List (List Char × JVal))) :
    '\n' ∉ (if dictTruthy meta then '\t' :: dumps (.jobj (meta.getD [])) else []) := by
  split_ifs
  · intro hm
    rcases List.mem_cons.mp hm with e1 | h2
    · exact absurd e1 (by decide)
    · exact dumps_no_nl _ h2
  · simp

theorem entries_append_log (content : List Char) (s e : DateTime) (desc : List Char)
    (meta : Option (List (List Char × JVal)))
    (hc : content = [] ∨ content.getLast? = some '\n') (hd : '\n' ∉ desc) :
    get_log_stats_entries (append_log content s e desc meta)
      = get_log_stats_entries content + 1 := by
  rw [append_log_eq]
  have hnl := recLine_no_nl s e hd (metaX_no_nl meta)
  have hel : entryLine (time_range s e ++ '\t' :: desc
      ++ (if dictTruthy meta then '\t' :: dumps (.jobj (meta.getD [])) else [])) = true := by
    rw [List.append_assoc]
    exact recLine_entry s e _
  unfold get_log_stats_entries
  rw [filter_entry_append_record hc hnl hel, List.length_append]
  rfl

theorem append_many_entries (es : List LogCall) :
    ∀ content, content.getLast? = some '\n' →
      (∀ c ∈ es, '\n' ∉ c.description) →
      get_log_stats_entries (append_many content es)
          = get_log_stats_entries content + es.length
        ∧ (append_many content es).getLast? = some '\n' := by
  induction es with
  | nil =>
    intro content h _
    exact ⟨by simp [append_many], by simpa [append_many] using h⟩
  | cons c cs ih =>
    intro content hc hall
    have hd : '\n' ∉ c.description := hall c (List.mem_cons_self _ _)
    have hall2 : ∀ x ∈ cs, '\n' ∉ x.description :=
      fun x hx => hall x (List.mem_cons_of_mem _ hx)
    have step := entries_append_log content c.start_dt c.end_dt c.description c.bbox_info
      (Or.inr hc) hd
    have hend := append_log_endsNL content c.start_dt c.end_dt c.description c.bbox_info
    have e1 : append_many content (c :: cs)
        = append_many (append_log content c.start_dt c.end_dt c.description c.bbox_info) cs := rfl
    rw [e1]
    obtain ⟨ih1, ih2⟩ := ih _ hend hall2
    refine ⟨?_, ih2⟩
    rw [ih1, step, List.length_cons]
    omega

theorem fmtBackupTs_no_slash (d : DateTime) : '/' ∉ fmtBackupTs d := by
  intro h
  unfold fmtBackupTs at h
  simp only [List.mem_append, List.mem_cons] at h
  casesm* _ ∨ _
  all_goals
    first
      | exact absurd (pad_isDigit (by assumption)) (by decide)
      | exact absurd (by assumption) (by decide : ¬('/' = '_'))

/-! ### Extraction lemmas -/

theorem extract_desc_foldl (raw : List Char) :
    (pySplitlines raw).foldl
      (fun d line =>
        if markerD.isPrefixOf line then pyStrip ((splitFirst markerD line).getD ([], [])).2
        else d) []
      = ((marker_lines raw).getLast?).elim []
          (fun line => pyStrip ((splitFirst markerD line).getD ([], [])).2) := by
  unfold marker_lines
  exact foldl_overwrite (fun line => markerD.isPrefixOf line)
    (fun line => pyStrip ((splitFirst markerD line).getD ([], [])).2) _ _

theorem extract_desc_foldl_of_getLast {raw L : List Char}
    (hL : (marker_lines raw).getLast? = some L) :
    (pySplitlines raw).foldl
      (fun d line =>
        if markerD.isPrefixOf line then pyStrip ((splitFirst markerD line).getD ([], [])).2
        else d) []
      = pyStrip ((splitFirst markerD L).getD ([], [])).2 := by
  rw [extract_desc_foldl, hL, Option.elim_some]

theorem extract_desc_foldl_none {raw : List Char}
    (hN : (marker_lines raw).getLast? = none) :
    (pySplitlines raw).foldl
      (fun d line =>
        if markerD.isPrefixOf line then pyStrip ((splitFirst markerD line).getD ([], [])).2
        else d) []
      = [] := by
  rw [extract_desc_foldl, hN]
  rfl

theorem marker_line_extract {L : List Char} (hpre : markerD.isPrefixOf L) :
    pyStrip ((splitFirst markerD L).getD ([], [])).2 = pyStrip (L.drop markerD.length) := by
  rw [splitFirst_at_head hpre]
  rfl

/-! ### Claim theorems -/

/-- C1 (amended): for every raw output containing at least one line that
begins with the literal marker `Description:`, extraction returns the text
after the marker on the *last* such line, trimmed — provided that trimmed
text is non-empty.  (As stated the claim is false: when the trimmed text
after the marker is empty, Python truthiness sends the code to the
fallback path; see the counterexample.) -/
theorem extract_last_marker_line (raw : List Char)
    (h1 : marker_lines raw ≠ [])
    (h2 : pyStrip (((marker_lines raw).getLastD []).drop markerD.length) ≠ []) :
    extract_description raw
      = pyStrip (((marker_lines raw).getLastD []).drop markerD.length) := by
  obtain ⟨L, hL⟩ := getLast?_of_ne_nil h1
  have hgetD : (marker_lines raw).getLastD [] = L := by
    rw [List.getLastD_eq_getLast?, hL]
    rfl
  have hLmem : L ∈ marker_lines raw := mem_of_getLast?_eq hL
  have hpre : markerD.isPrefixOf L = true := (List.mem_filter.mp hLmem).2
  rw [hgetD] at h2 ⊢
  have hie : (pyStrip (L.drop markerD.length)).isEmpty = false := by
    cases hx : (pyStrip (L.drop markerD.length)).isEmpty
    · rfl
    · exact absurd (List.isEmpty_iff.mp hx) h2
  simp only [extract_description]
  rw [extract_desc_foldl_of_getLast hL, marker_line_extract hpre, if_neg (by simp [hie])]

/-- C1 witness: a concrete raw output with two marker lines, where the
later line wins and its trimmed text is returned. -/
theorem extract_last_marker_line_witness :
    (marker_lines "Description: a\nDescription: final out \n".data ≠ []
      ∧ pyStrip (((marker_lines "Description: a\nDescription: final out \n".data).getLastD
          []).drop markerD.length) ≠ [])
    ∧ extract_description "Description: a\nDescription: final out \n".data
        = pyStrip (((marker_lines "Description: a\nDescription: final out \n".data).getLastD
            []).drop markerD.length) :=
  ⟨⟨by decide, by decide⟩, extract_last_marker_line _ (by decide) (by decide)⟩

/-- C1 counterexample: the raw output `"Description:\nsome noise-free line"`
has a marker line, and the text after the marker trims to the empty string;
the claim as stated demands that empty result, but the code falls through
to the fallback and returns the last clean line instead. -/
theorem extract_marker_as_stated_false :
    marker_lines "Description:\nsome noise-free line".data ≠ []
    ∧ extract_description "Description:\nsome noise-free line".data
        ≠ pyStrip (((marker_lines "Description:\nsome noise-free line".data).getLastD
            []).drop markerD.length) :=
  ⟨by decide, by decide⟩

/-- C2: for raw output with no `Description:` line, extraction returns the
last non-blank non-noise line trimmed when one exists, and the whole raw
output trimmed when every line is blank or noise. -/
theorem extract_fallback_clean_lines (raw : List Char)
    (h : marker_lines raw = []) :
    (clean_lines raw ≠ [] →
        extract_description raw = pyStrip ((clean_lines raw).getLastD []))
      ∧ (clean_lines raw = [] → extract_description raw = pyStrip raw) := by
  have hN : (marker_lines raw).getLast? = none := by rw [h]; rfl
  constructor
  · intro hcl
    obtain ⟨L, hL⟩ := getLast?_of_ne_nil hcl
    have hgetD : (clean_lines raw).getLastD [] = L := by
      rw [List.getLastD_eq_getLast?, hL]
      rfl
    simp only [extract_description]
    rw [extract_desc_foldl_none hN, if_pos (by decide), hL, hgetD]
  · intro hcl
    have hN2 : (clean_lines raw).getLast? = none := by rw [hcl]; rfl
    simp only [extract_description]
    rw [extract_desc_foldl_none hN, if_pos (by decide), hN2]

/-- C2 witness: a concrete marker-free raw output with noise and blank
lines around one clean line, which is returned trimmed; the all-noise
second conjunct is exercised by the hypothesis being checked by `decide`
on the same theorem application. -/
theorem extract_fallback_clean_lines_witness :
    marker_lines "Loading checkpoint 3\n  \n the clean line \nUserWarning: x\n".data = []
    ∧ ((clean_lines "Loading checkpoint 3\n  \n the clean line \nUserWarning: x\n".data ≠ [] →
          extract_description "Loading checkpoint 3\n  \n the clean line \nUserWarning: x\n".data
            = pyStrip ((clean_lines
                "Loading checkpoint 3\n  \n the clean line \nUserWarning: x\n".data).getLastD []))
        ∧ (clean_lines "Loading checkpoint 3\n  \n the clean line \nUserWarning: x\n".data = [] →
          extract_description "Loading checkpoint 3\n  \n the clean line \nUserWarning: x\n".data
            = pyStrip "Loading checkpoint 3\n  \n the clean line \nUserWarning: x\n".data)) :=
  ⟨by decide, extract_fallback_clean_lines _ (by decide)⟩

/-- C3: whenever the external process exits non-zero, both backends and the
dispatcher return `None`; the embedding is a total function, mirroring the
catch-all `except` clause that converts every failure into `None`. -/
theorem analyze_nonzero_exit_none (res : SubprocResult) (use_sam2 : Bool)
    (h : res.returncode ≠ 0) :
    analyze_with_bbox res = none ∧ analyze_with_sam2 res = none
      ∧ analyze_video use_sam2 res = none := by
  unfold analyze_video analyze_with_bbox analyze_with_sam2
  cases use_sam2 <;> simp [h]

/-- C3 witness: exit code 1 with diagnostic text on stderr yields `None`. -/
theorem analyze_nonzero_exit_none_witness :
    ((1 : Int) ≠ 0)
    ∧ (analyze_with_bbox ⟨1, [], "boom".data⟩ = none
        ∧ analyze_with_sam2 ⟨1, [], "boom".data⟩ = none
        ∧ analyze_video false ⟨1, [], "boom".data⟩ = none) :=
  ⟨by decide, analyze_nonzero_exit_none ⟨1, [], "boom".data⟩ false (by decide)⟩

/-- C8 (amended): on zero exit the description is extracted from stdout
when stdout is non-empty and from stderr otherwise (`stdout or stderr`),
regardless of which stream carries the `Description:` line.  (As stated
the claim is false; see the counterexample.) -/
theorem extract_stream_preference (res : SubprocResult) (use_sam2 : Bool)
    (h : res.returncode = 0) :
    (res.stdout ≠ [] → analyze_video use_sam2 res = some (extract_description res.stdout))
    ∧ (res.stdout = [] → analyze_video use_sam2 res = some (extract_description res.stderr)) := by
  have h0 : ¬(res.returncode ≠ 0) := by simp [h]
  unfold analyze_video analyze_with_bbox analyze_with_sam2 pyOrStr
  constructor
  · intro hs
    have hie : res.stdout.isEmpty = false := by
      cases hx : res.stdout.isEmpty
      · rfl
      · exact absurd (List.isEmpty_iff.mp hx) hs
    cases use_sam2 <;> simp [h0, hie]
  · intro hs
    have hie : res.stdout.isEmpty = true := by rw [List.isEmpty_iff]; exact hs
    cases use_sam2 <;> simp [h0, hie]

/-- C8 witness: with empty stdout the description comes from stderr. -/
theorem extract_stream_preference_witness :
    ((0 : Int) = 0)
    ∧ analyze_video false ⟨0, [], "Description: hi".data⟩
        = some (extract_description "Description: hi".data) :=
  ⟨rfl, (extract_stream_preference ⟨0, [], "Description: hi".data⟩ false rfl).2 rfl⟩

/-- C8 counterexample: stderr carries the `Description:` line and stdout
does not, yet the code extracts from the non-empty stdout, returning the
fallback text `junk` rather than the description `hi` found on stderr. -/
theorem extract_marker_stream_as_stated_false :
    containsSub markerD "Description: hi".data = true
    ∧ containsSub markerD "junk".data = false
    ∧ analyze_with_bbox ⟨0, "junk".data, "Description: hi".data⟩ = some "junk".data
    ∧ analyze_with_bbox ⟨0, "junk".data, "Description: hi".data⟩
        ≠ some (extract_description "Description: hi".data) :=
  ⟨by decide, by decide, by decide, by decide⟩

/-- C10: `read_recent_logs` with `count = 0` returns every non-blank
non-comment line of the file (the Python slice `log_lines[-0:]` is the
whole list), not the empty sequence. -/
theorem read_recent_logs_zero_returns_all (content : List Char) :
    read_recent_logs content 0 = logLines content := by
  unfold read_recent_logs
  by_cases h : (logLines content).isEmpty = true
  · rw [if_pos h]
    exact (List.isEmpty_iff.mp h).symm
  · rw [if_neg h]
    unfold pySliceFrom
    rw [if_neg (by omega : ¬((-(0 : Int)) < 0))]
    simp

theorem backup_logs_eq (p content suf : List Char) (now : DateTime)
    (h1 : ¬('/' ∈ ('.' :: suf ++ ".txt".data)))
    (h2 : ¬((pathName p).isEmpty = true)) :
    backup_logs p true content (some suf) now
      = some (with_suffix p ('.' :: suf ++ ".txt".data), content) := by
  simp only [backup_logs]
  rw [if_neg h1, if_neg h2]
  rfl

theorem backup_logs_eq_none (p content : List Char) (now : DateTime)
    (h1 : ¬('/' ∈ ('.' :: fmtBackupTs now ++ ".txt".data)))
    (h2 : ¬((pathName p).isEmpty = true)) :
    backup_logs p true content none now
      = some (with_suffix p ('.' :: fmtBackupTs now ++ ".txt".data), content) := by
  simp only [backup_logs]
  rw [if_neg h1, if_neg h2]
  rfl

/-- C4 (amended): for an existing log file, `backup_logs` returns the log
path with its final extension *replaced* by `.{suffix}.txt` (appended when
the path has no extension), together with the copied file contents; the
suffix is the caller's, or the `%Y%m%d_%H%M%S` timestamp when omitted.
(As stated — the original path with `.{suffix}.txt` appended as an
additional extension segment — the claim is false; see the
counterexample.) -/
theorem backup_logs_path_amended (p content suf : List Char) (now : DateTime)
    (h1 : '/' ∉ suf) (h2 : pathName p ≠ []) :
    backup_logs p true content (some suf) now
      = some ((if (pathSuffix p).isEmpty then p
          else p.take (p.length - (pathSuffix p).length)) ++ '.' :: suf ++ ".txt".data,
          content)
    ∧ backup_logs p true content none now
      = some ((if (pathSuffix p).isEmpty then p
          else p.take (p.length - (pathSuffix p).length)) ++ '.' :: fmtBackupTs now
            ++ ".txt".data,
          content) := by
  have hslash : ¬('/' ∈ ('.' :: suf ++ ".txt".data)) := by
    intro hm
    rcases List.mem_append.mp hm with hx | hx
    · rcases List.mem_cons.mp hx with e | hx2
      · exact absurd e (by decide)
      · exact h1 hx2
    · exact absurd hx (by decide)
  have hslash2 : ¬('/' ∈ ('.' :: fmtBackupTs now ++ ".txt".data)) := by
    intro hm
    rcases List.mem_append.mp hm with hx | hx
    · rcases List.mem_cons.mp hx with e | hx2
      · exact absurd e (by decide)
      · exact fmtBackupTs_no_slash now hx2
    · exact absurd hx (by decide)
  have hne : ¬((pathName p).isEmpty = true) := fun hx => h2 (List.isEmpty_iff.mp hx)
  constructor
  · rw [backup_logs_eq p content suf now hslash hne]
    unfold with_suffix
    by_cases hs : (pathSuffix p).isEmpty = true
    · rw [if_pos hs, if_pos hs]
      simp [List.append_assoc]
    · rw [if_neg hs, if_neg hs]
      simp [List.append_assoc]
  · rw [backup_logs_eq_none p content now hslash2 hne]
    unfold with_suffix
    by_cases hs : (pathSuffix p).isEmpty = true
    · rw [if_pos hs, if_pos hs]
      simp [List.append_assoc]
    · rw [if_neg hs, if_neg hs]
      simp [List.append_assoc]

/-- C4 witness: a `.txt` log path, where replacing the extension coincides
with inserting the suffix before it. -/
theorem backup_logs_path_amended_witness :
    ('/' ∉ "backup1".data ∧ pathName "logs/action_log.txt".data ≠ [])
    ∧ (backup_logs "logs/action_log.txt".data true "old content".data
        (some "backup1".data) ⟨2024, 1, 2, 3, 4, 5⟩
      = some ((if (pathSuffix "logs/action_log.txt".data).isEmpty
            then "logs/action_log.txt".data
            else "logs/action_log.txt".data.take
              ("logs/action_log.txt".data.length - (pathSuffix "logs/action_log.txt".data).length))
          ++ '.' :: "backup1".data ++ ".txt".data, "old content".data)
      ∧ backup_logs "logs/action_log.txt".data true "old content".data
          none ⟨2024, 1, 2, 3, 4, 5⟩
        = some ((if (pathSuffix "logs/action_log.txt".data).isEmpty
            then "logs/action_log.txt".data
            else "logs/action_log.txt".data.take
              ("logs/action_log.txt".data.length - (pathSuffix "logs/action_log.txt".data).length))
          ++ '.' :: fmtBackupTs ⟨2024, 1, 2, 3, 4, 5⟩ ++ ".txt".data, "old content".data)) :=
  ⟨⟨by decide, by decide⟩,
    backup_logs_path_amended "logs/action_log.txt".data "old content".data
      "backup1".data ⟨2024, 1, 2, 3, 4, 5⟩ (by decide) (by decide)⟩

/-- C4 counterexample: for the log path `logs/action.log` the backup path
is `logs/action.b1.txt` — the `.log` extension is replaced, not kept — so
it differs from the original path with `.b1.txt` appended as an additional
extension segment (`logs/action.log.b1.txt`). -/
theorem backup_logs_append_as_stated_false :
    backup_logs "logs/action.log".data true "data".data (some "b1".data) ⟨2025, 1, 2, 3, 4, 5⟩
      = some ("logs/action.b1.txt".data, "data".data)
    ∧ "logs/action.b1.txt".data
        ≠ "logs/action.log".data ++ '.' :: "b1".data ++ ".txt".data :=
  ⟨by decide, by decide⟩

/-- C6 (amended): every `append_log` call appends the single record
`time-range TAB description [TAB single-line-JSON-metadata] NEWLINE`; the
appended text contains exactly one newline, at the end, provided the
description itself has none, and the metadata field is present iff the
metadata dict is present *and non-empty* (Python truthiness).  (As stated
— metadata field appended whenever metadata is present, and exactly one
line for every description — the claim is false; see the
counterexample.) -/
theorem append_log_single_line_format (content : List Char) (s e : DateTime)
    (desc : List Char) (meta : Option (List (List Char × JVal))) (hd : '\n' ∉ desc) :
    ∃ line, append_log content s e desc meta = content ++ line ++ ['\n']
      ∧ '\n' ∉ line
      ∧ (dictTruthy meta = true →
          line = time_range s e ++ '\t' :: desc ++ '\t' :: dumps (.jobj (meta.getD [])))
      ∧ (dictTruthy meta = false → line = time_range s e ++ '\t' :: desc) := by
  refine ⟨time_range s e ++ '\t' :: desc
      ++ (if dictTruthy meta then '\t' :: dumps (.jobj (meta.getD [])) else []),
    append_log_eq content s e desc meta,
    recLine_no_nl s e hd (metaX_no_nl meta), ?_, ?_⟩
  · intro hm
    rw [if_pos hm]
  · intro hm
    rw [if_neg (by simp [hm])]
    simp

/-- C6 witness: one record with non-empty metadata. -/
theorem append_log_single_line_format_witness :
    ('\n' ∉ "hi there".data)
    ∧ ∃ line, append_log [] ⟨2024, 1, 2, 3, 4, 5⟩ ⟨2024, 1, 2, 3, 4, 10⟩ "hi there".data
          (some [("a".data, JVal.jint 1)]) = [] ++ line ++ ['\n']
        ∧ '\n' ∉ line
        ∧ (dictTruthy (some [("a".data, JVal.jint 1)]) = true →
            line = time_range ⟨2024, 1, 2, 3, 4, 5⟩ ⟨2024, 1, 2, 3, 4, 10⟩ ++ '\t' :: "hi there".data
              ++ '\t' :: dumps (.jobj ((some [("a".data, JVal.jint 1)]).getD [])))
        ∧ (dictTruthy (some [("a".data, JVal.jint 1)]) = false →
            line = time_range ⟨2024, 1, 2, 3, 4, 5⟩ ⟨2024, 1, 2, 3, 4, 10⟩
              ++ '\t' :: "hi there".data) :=
  ⟨by decide, append_log_single_line_format [] ⟨2024, 1, 2, 3, 4, 5⟩ ⟨2024, 1, 2, 3, 4, 10⟩
    "hi there".data (some [("a".data, JVal.jint 1)]) (by decide)⟩

/-- C6 counterexample: with the present-but-empty metadata dict `{}` and a
description containing a newline, the appended text is two lines and
carries no metadata field, contradicting the claim as stated (one line,
tab + JSON since metadata is present). -/
theorem append_log_as_stated_false :
    dictTruthy (some ([] : List (List Char × JVal))) = false
    ∧ (pySplitlines (append_log [] ⟨2024, 1, 2, 3, 4, 5⟩ ⟨2024, 1, 2, 3, 4, 10⟩
        "a\nb".data (some []))).length = 2
    ∧ append_log [] ⟨2024, 1, 2, 3, 4, 5⟩ ⟨2024, 1, 2, 3, 4, 10⟩ "a\nb".data (some [])
        ≠ time_range ⟨2024, 1, 2, 3, 4, 5⟩ ⟨2024, 1, 2, 3, 4, 10⟩ ++ '\t' :: "a\nb".data
          ++ '\t' :: dumps (.jobj []) ++ ['\n'] :=
  ⟨by decide, by decide, by decide⟩

/-- C7: a freshly created header-only log file has zero entries, and after
any sequence of `append_log` calls whose descriptions contain no newline
the entry count equals the number of calls. -/
theorem get_log_stats_entry_count (now : List Char) (es : List LogCall)
    (h1 : '\n' ∉ now)
    (h2 : es.all (fun c => !(c.description.contains '\n')) = true) :
    get_log_stats_entries (create_log_file now) = 0
    ∧ get_log_stats_entries (append_many (create_log_file now) es) = es.length := by
  have h2m : ∀ c ∈ es, '\n' ∉ c.description := by
    intro c hc hm
    have hb := List.all_eq_true.mp h2 c hc
    have he : c.description.elem '\n' = true := List.elem_iff.mpr hm
    rw [show c.description.contains '\n' = c.description.elem '\n' from rfl, he] at hb
    exact absurd hb (by decide)
  have h0 := create_log_file_entries now h1
  refine ⟨h0, ?_⟩
  obtain ⟨ha, -⟩ := append_many_entries es (create_log_file now) (create_log_file_endsNL now) h2m
  rw [ha, h0]
  omega

/-- C7 witness: two appends (one with metadata, one without) on a fresh
file give an entry count of two. -/
theorem get_log_stats_entry_count_witness :
    ('\n' ∉ "2025-10-12T00:00:00".data
      ∧ ([⟨⟨2024, 1, 2, 3, 4, 5⟩, ⟨2024, 1, 2, 3, 4, 10⟩, "hello".data, none⟩,
          ⟨⟨2024, 1, 2, 3, 5, 0⟩, ⟨2024, 1, 2, 3, 5, 5⟩, "world".data,
            some [("k".data, JVal.jint 7)]⟩] : List LogCall).all
          (fun c => !(c.description.contains '\n')) = true)
    ∧ (get_log_stats_entries (create_log_file "2025-10-12T00:00:00".data) = 0
      ∧ get_log_stats_entries (append_many (create_log_file "2025-10-12T00:00:00".data)
          [⟨⟨2024, 1, 2, 3, 4, 5⟩, ⟨2024, 1, 2, 3, 4, 10⟩, "hello".data, none⟩,
           ⟨⟨2024, 1, 2, 3, 5, 0⟩, ⟨2024, 1, 2, 3, 5, 5⟩, "world".data,
             some [("k".data, JVal.jint 7)]⟩])
        = ([⟨⟨2024, 1, 2, 3, 4, 5⟩, ⟨2024, 1, 2, 3, 4, 10⟩, "hello".data, none⟩,
            ⟨⟨2024, 1, 2, 3, 5, 0⟩, ⟨2024, 1, 2, 3, 5, 5⟩, "world".data,
              some [("k".data, JVal.jint 7)]⟩] : List LogCall).length) :=
  ⟨⟨by decide, by decide⟩,
    get_log_stats_entry_count "2025-10-12T00:00:00".data
      [⟨⟨2024, 1, 2, 3, 4, 5⟩, ⟨2024, 1, 2, 3, 4, 10⟩, "hello".data, none⟩,
       ⟨⟨2024, 1, 2, 3, 5, 0⟩, ⟨2024, 1, 2, 3, 5, 5⟩, "world".data,
         some [("k".data, JVal.jint 7)]⟩] (by decide) (by decide)⟩

/-- C9: `clear_logs` rewrites the file to exactly the fresh header
(discarding all prior content), after which the entry count is zero and
the file splits into the fixed title line, format line, creation-timestamp
line and a blank line. -/
theorem clear_logs_resets_header (content now : List Char) (h : '\n' ∉ now) :
    clear_logs content now = create_log_file now
    ∧ get_log_stats_entries (clear_logs content now) = 0
    ∧ pySplitlines (clear_logs content now)
        = ["# Action Log File".data,
           "# Format: TIME_RANGE\\tDESCRIPTION\\tBBOX_INFO".data,
           "# Created: ".data ++ now, []] :=
  ⟨rfl, create_log_file_entries now h, create_log_file_split now h⟩

/-- C9 witness: clearing a file with stale entries leaves the fresh
header. -/
theorem clear_logs_resets_header_witness :
    ('\n' ∉ "2025-01-02T03:04:05".data)
    ∧ (clear_logs "old\njunk\n".data "2025-01-02T03:04:05".data
        = create_log_file "2025-01-02T03:04:05".data
      ∧ get_log_stats_entries (clear_logs "old\njunk\n".data "2025-01-02T03:04:05".data) = 0
      ∧ pySplitlines (clear_logs "old\njunk\n".data "2025-01-02T03:04:05".data)
          = ["# Action Log File".data,
             "# Format: TIME_RANGE\\tDESCRIPTION\\tBBOX_INFO".data,
             "# Created: ".data ++ "2025-01-02T03:04:05".data, []]) :=
  ⟨by decide, clear_logs_resets_header "old\njunk\n".data "2025-01-02T03:04:05".data (by decide)⟩

theorem isEmpty_append_singleton {α : Type} (L : List α) (x : α) :
    (L ++ [x]).isEmpty = false := by
  cases hx : (L ++ [x]).isEmpty
  · rfl
  · exact absurd (List.isEmpty_iff.mp hx) (by simp)

theorem pyStrip_tr_line (s e : DateTime) (rest : List Char)
    (hex : ∃ c, (time_range s e ++ '\t' :: rest).getLast? = some c ∧ isWS c = false) :
    pyStrip (time_range s e ++ '\t' :: rest) = time_range s e ++ '\t' :: rest := by
  obtain ⟨c, hc, hcw⟩ := hex
  obtain ⟨c0, t0, htr, hdg⟩ := time_range_head_digit s e
  have hcons : time_range s e ++ '\t' :: rest = c0 :: (t0 ++ '\t' :: rest) := by
    rw [htr, List.cons_append]
  rw [hcons, pyStrip_cons_not_ws (isDigit_not_ws hdg)]
  exact stripR_eq_self (hcons ▸ hc) hcw

theorem pyStrip_tr_tab (s e : DateTime) :
    pyStrip (time_range s e ++ '\t' :: ([] : List Char)) = time_range s e := by
  obtain ⟨c0, t0, htr, hdg⟩ := time_range_head_digit s e
  have hcons : time_range s e ++ '\t' :: ([] : List Char) = c0 :: (t0 ++ '\t' :: []) := by
    rw [htr, List.cons_append]
  rw [hcons, pyStrip_cons_not_ws (isDigit_not_ws hdg), ← hcons, stripR_append]
  rw [if_pos (by decide)]
  obtain ⟨cL, hcL, hdL⟩ := time_range_getLast_digit s e
  exact stripR_eq_self hcL (isDigit_not_ws hdL)

/-- C5 (amended): immediately after an `append_log`, `read_recent_logs 1`
returns exactly one line; that line contains the formatted time range, and
contains the exact description provided the description has no newline and
either the metadata dict is truthy or the description carries no trailing
whitespace.  The prior content is empty or newline-terminated, as the
manager always leaves it.  (As stated — the returned line contains the
exact description for *every* call — the claim is false, because
`read_recent_logs` strips each line; see the counterexample.) -/
theorem append_then_read_recent_one (content : List Char) (s e : DateTime)
    (desc : List Char) (meta : Option (List (List Char × JVal)))
    (hc : content = [] ∨ content.getLast? = some '\n')
    (hd : '\n' ∉ desc)
    (hw : dictTruthy meta = true ∨ trailingWSFree desc = true) :
    ∃ line, read_recent_logs (append_log content s e desc meta) 1 = [line]
      ∧ containsSub (time_range s e) line = true
      ∧ containsSub desc line = true := by
  have hnl := recLine_no_nl s e hd (metaX_no_nl meta)
  have hel : entryLine (time_range s e ++ '\t' :: desc
      ++ (if dictTruthy meta then '\t' :: dumps (.jobj (meta.getD [])) else [])) = true := by
    rw [List.append_assoc]
    exact recLine_entry s e _
  have hfil := filter_entry_append_record hc hnl hel
  have hlog : logLines (append_log content s e desc meta)
      = logLines content ++ [pyStrip (time_range s e ++ '\t' :: desc
          ++ (if dictTruthy meta then '\t' :: dumps (.jobj (meta.getD [])) else []))] := by
    unfold logLines
    rw [append_log_eq, hfil, List.map_append]
    rfl
  have hread : read_recent_logs (append_log content s e desc meta) 1
      = [pyStrip (time_range s e ++ '\t' :: desc
          ++ (if dictTruthy meta then '\t' :: dumps (.jobj (meta.getD [])) else []))] := by
    simp only [read_recent_logs]
    rw [hlog, if_neg (by simp [isEmpty_append_singleton])]
    exact pySliceFrom_neg_one _ _
  have hboth : containsSub (time_range s e)
        (pyStrip (time_range s e ++ '\t' :: desc
          ++ (if dictTruthy meta then '\t' :: dumps (.jobj (meta.getD [])) else []))) = true
      ∧ containsSub desc
        (pyStrip (time_range s e ++ '\t' :: desc
          ++ (if dictTruthy meta then '\t' :: dumps (.jobj (meta.getD [])) else []))) = true := by
    by_cases hm : dictTruthy meta = true
    · rw [if_pos hm, List.append_assoc, List.cons_append]
      have hdne : dumps (JVal.jobj (meta.getD [])) ≠ [] := by rw [dumps]; simp
      have hlast : (time_range s e
          ++ '\t' :: (desc ++ '\t' :: dumps (JVal.jobj (meta.getD [])))).getLast?
            = some '\x7d' := by
        rw [List.getLast?_append_of_ne_nil _ (by simp),
          getLast?_cons_of_ne_nil _
            (by simp : desc ++ '\t' :: dumps (JVal.jobj (meta.getD [])) ≠ []),
          List.getLast?_append_of_ne_nil _
            (by simp : ('\t' :: dumps (JVal.jobj (meta.getD [])) : List Char) ≠ []),
          getLast?_cons_of_ne_nil _ hdne, dumps,
          List.getLast?_append_of_ne_nil _ (by simp)]
        rfl
      rw [pyStrip_tr_line s e _ ⟨'\x7d', hlast, by decide⟩]
      constructor
      · simpa [List.append_assoc, List.cons_append, List.singleton_append] using
          containsSub_of_parts (time_range s e) []
            ('\t' :: (desc ++ '\t' :: dumps (JVal.jobj (meta.getD []))))
      · simpa [List.append_assoc, List.cons_append, List.singleton_append] using
          containsSub_of_parts desc (time_range s e ++ ['\t'])
            ('\t' :: dumps (JVal.jobj (meta.getD [])))
    · rw [if_neg hm, List.append_nil]
      by_cases hde : desc = []
      · subst hde
        rw [pyStrip_tr_tab s e]
        constructor
        · simpa [List.append_assoc] using containsSub_of_parts (time_range s e) [] []
        · exact containsSub_nil_left _
      · have htw : trailingWSFree desc = true := by
          rcases hw with h | h
          · exact absurd h hm
          · exact h
        obtain ⟨cl, hcl⟩ := getLast?_of_ne_nil hde
        have hclws : isWS cl = false := by
          unfold trailingWSFree at htw
          rw [hcl] at htw
          simpa using htw
        have hlast : (time_range s e ++ '\t' :: desc).getLast? = some cl := by
          rw [List.getLast?_append_of_ne_nil _ (by simp), getLast?_cons_of_ne_nil _ hde]
          exact hcl
        rw [pyStrip_tr_line s e desc ⟨cl, hlast, hclws⟩]
        constructor
        · simpa [List.append_assoc, List.cons_append, List.singleton_append] using
            containsSub_of_parts (time_range s e) [] ('\t' :: desc)
        · simpa [List.append_assoc, List.cons_append, List.singleton_append] using
            containsSub_of_parts desc (time_range s e ++ ['\t']) []
  exact ⟨_, hread, hboth.1, hboth.2⟩

/-- C5 witness: one append with a clean description on a fresh header-only
file; the single returned line contains both the time range and the
description. -/
theorem append_then_read_recent_one_witness :
    ((create_log_file "T".data = [] ∨ (create_log_file "T".data).getLast? = some '\n')
      ∧ '\n' ∉ "waves hand".data
      ∧ (dictTruthy (none : Option (List (List Char × JVal))) = true
          ∨ trailingWSFree "waves hand".data = true))
    ∧ ∃ line, read_recent_logs (append_log (create_log_file "T".data) ⟨2024, 1, 2, 3, 4, 5⟩
          ⟨2024, 1, 2, 3, 4, 10⟩ "waves hand".data none) 1 = [line]
        ∧ containsSub (time_range ⟨2024, 1, 2, 3, 4, 5⟩ ⟨2024, 1, 2, 3, 4, 10⟩) line = true
        ∧ containsSub "waves hand".data line = true :=
  ⟨⟨by decide, by decide, by decide⟩,
    append_then_read_recent_one (create_log_file "T".data) ⟨2024, 1, 2, 3, 4, 5⟩
      ⟨2024, 1, 2, 3, 4, 10⟩ "waves hand".data none (by decide) (by decide) (by decide)⟩

/-- C5 counterexample: with the description `"waves "` (trailing space) and
no metadata, `read_recent_logs 1` after the append returns the single line
`2024-01-02-030405~030410\twaves` — stripped — which does not contain the
exact description string that was supplied. -/
theorem append_then_read_exact_desc_false :
    read_recent_logs (append_log (create_log_file "T".data) ⟨2024, 1, 2, 3, 4, 5⟩
        ⟨2024, 1, 2, 3, 4, 10⟩ "waves ".data none) 1
      = ["2024-01-02-030405~030410\twaves".data]
    ∧ containsSub "waves ".data "2024-01-02-030405~030410\twaves".data = false :=
  ⟨by decide, by decide⟩
